import Mathlib

/-!
A verification development for the *ring* crate's dispatch and constant-time
core, as described by its specification.  The repository's crate root
(`src/src/lib.rs`) declares the modules `aead`, `constant_time`, `arithmetic`,
`limb`, `cpu`, `error`, the private `sealed` module, and the
`#[cfg(feature = "alloc")]`-gated `rsa` module.  The bodies of those modules
are not part of the sources provided here, so their operations are modelled
from the specification; each such definition carries a doc comment starting
`Modelled from the spec:`.  The crate-root facts (the sealed-trait closure and
the feature gating of `rsa`) are embedded directly from `lib.rs`.
-/

namespace RingSpec

/-- Modelled from the spec: a byte of key, nonce, aad, plaintext or ciphertext
material.  Bytes are embedded as `Nat`; well-formed data keeps them below
256, and the bitwise operations used by the model (`^^^`, `|||`) never
leave that range when their inputs are in it. -/
abbrev Byte := Nat

/-- XOR-fold of a byte sequence (the accumulator pattern the constant-time
code uses: combine every byte, never exit early). -/
def xorFold : List Byte → Nat
  | [] => 0
  | b :: bs => b ^^^ xorFold bs

/-- Modelled from the spec: the comparison loop of the `constant_time` module
(declared at `src/src/lib.rs:114`; body not under `src/`).  The loop walks
both buffers in full, accumulating the bitwise OR of the bytewise XOR
differences; it never branches on buffer contents.  To express the timing
contract the same recursion also returns the number of loop iterations
performed and the list of indices accessed, starting from index `i`. -/
def ctScan : List Byte → List Byte → Nat → Nat × Nat × List Nat
  | [], [], _ => (0, 0, [])
  | a :: as, b :: bs, i =>
    let r := ctScan as bs (i + 1)
    ((a ^^^ b) ||| r.1, r.2.1 + 1, i :: r.2.2)
  | _, _, _ => (0, 0, [])

/-- Modelled from the spec: `constant_time_equal(a, b)` over byte sequences.
The (public) lengths are compared once, up front; the contents are then
compared by the full, non-short-circuiting scan. -/
def constant_time_equal (a b : List Byte) : Bool :=
  if a.length = b.length then (ctScan a b 0).1 == 0 else false

/-- The number of loop iterations `constant_time_equal` performs on the
buffer contents (its execution-time measure in this model). -/
def ctEqSteps (a b : List Byte) : Nat := (ctScan a b 0).2.1

/-- The sequence of buffer indices `constant_time_equal` reads (its
memory-access pattern in this model). -/
def ctEqTrace (a b : List Byte) : List Nat := (ctScan a b 0).2.2

/-- Modelled from the spec: `constant_time_select(flag, a, b)` returns `a`
when the flag is set and `b` otherwise, computed arithmetically from the
flag rather than by branching on it. -/
def constant_time_select (flag : Bool) (a b : Nat) : Nat :=
  flag.toNat * a + (1 - flag.toNat) * b

theorem constant_time_select_true (a b : Nat) :
    constant_time_select true a b = a := by
  simp [constant_time_select]

theorem constant_time_select_false (a b : Nat) :
    constant_time_select false a b = b := by
  simp [constant_time_select]

theorem lor_eq_zero_iff (a b : Nat) : a ||| b = 0 ↔ a = 0 ∧ b = 0 := by
  constructor
  · intro h
    constructor
    · apply Nat.eq_of_testBit_eq
      intro i
      have hb := congrArg (fun x => Nat.testBit x i) h
      simp [Nat.testBit_lor] at hb
      simp [hb.1]
    · apply Nat.eq_of_testBit_eq
      intro i
      have hb := congrArg (fun x => Nat.testBit x i) h
      simp [Nat.testBit_lor] at hb
      simp [hb.2]
  · rintro ⟨ha, hb⟩
    simp [ha, hb]

theorem ctScan_fst_self (a : List Byte) (i : Nat) : (ctScan a a i).1 = 0 := by
  induction a generalizing i with
  | nil => rfl
  | cons x xs ih => simp [ctScan, ih, Nat.xor_self]

theorem ctScan_fst_eq_zero_iff (a b : List Byte) (i : Nat)
    (hlen : a.length = b.length) : (ctScan a b i).1 = 0 ↔ a = b := by
  induction a generalizing b i with
  | nil =>
    cases b with
    | nil => simp [ctScan]
    | cons y ys => simp at hlen
  | cons x xs ih =>
    cases b with
    | nil => simp at hlen
    | cons y ys =>
      simp only [List.length_cons, Nat.add_right_cancel_iff] at hlen
      simp only [ctScan, lor_eq_zero_iff, Nat.xor_eq_zero, ih ys (i + 1) hlen,
        List.cons.injEq]

theorem constant_time_equal_refl (a : List Byte) :
    constant_time_equal a a = true := by
  simp [constant_time_equal, ctScan_fst_self]

theorem constant_time_equal_eq_true_iff (a b : List Byte)
    (hlen : a.length = b.length) :
    constant_time_equal a b = true ↔ a = b := by
  simp [constant_time_equal, hlen, ctScan_fst_eq_zero_iff a b 0 hlen]

theorem constant_time_equal_ne (a b : List Byte)
    (hlen : a.length = b.length) (hne : a ≠ b) :
    constant_time_equal a b = false := by
  rcases h : constant_time_equal a b with _ | _
  · rfl
  · exact absurd ((constant_time_equal_eq_true_iff a b hlen).mp h) hne

theorem ctScan_steps (a : List Byte) :
    ∀ (b : List Byte) (i : Nat), (ctScan a b i).2.1 = min a.length b.length := by
  induction a with
  | nil =>
    intro b i
    cases b <;> simp [ctScan]
  | cons x xs ih =>
    intro b i
    cases b with
    | nil => simp [ctScan]
    | cons y ys =>
      simp [ctScan, ih ys (i + 1)]
      omega

theorem ctScan_trace (a : List Byte) :
    ∀ (b : List Byte) (i : Nat),
      (ctScan a b i).2.2 = List.range' i (min a.length b.length) := by
  induction a with
  | nil =>
    intro b i
    cases b <;> simp [ctScan]
  | cons x xs ih =>
    intro b i
    cases b with
    | nil => simp [ctScan]
    | cons y ys =>
      have hmin : (xs.length + 1) ⊓ (ys.length + 1) = (xs.length ⊓ ys.length) + 1 := by
        omega
      simp [ctScan, ih ys (i + 1), hmin, List.range'_succ]

theorem xor_left_cancel {a x y : Nat} (h : a ^^^ x = a ^^^ y) : x = y := by
  have h2 := congrArg (fun z => a ^^^ z) h
  simpa [← Nat.xor_assoc, Nat.xor_self] using h2

theorem xorFold_append (l1 l2 : List Byte) :
    xorFold (l1 ++ l2) = xorFold l1 ^^^ xorFold l2 := by
  induction l1 with
  | nil => simp [xorFold]
  | cons x xs ih => simp [xorFold, ih, Nat.xor_assoc]

theorem xorFold_set (l : List Byte) :
    ∀ (i : Nat) (x : Byte), i < l.length →
      xorFold (l.set i x) = xorFold l ^^^ (l.getD i 0 ^^^ x) := by
  induction l with
  | nil =>
    intro i x h
    simp at h
  | cons a as ih =>
    intro i x h
    cases i with
    | zero =>
      simp only [List.set_cons_zero, List.getD_cons_zero, xorFold]
      rw [Nat.xor_comm a (xorFold as), Nat.xor_assoc (xorFold as) a (a ^^^ x),
        ← Nat.xor_assoc a a x, Nat.xor_self, Nat.zero_xor,
        Nat.xor_comm x (xorFold as)]
    | succ j =>
      simp only [List.length_cons, Nat.add_lt_add_iff_right] at h
      simp only [List.set_cons_succ, List.getD_cons_succ, xorFold, ih j x h,
        Nat.xor_assoc]

theorem xorFold_set_ne (l : List Byte) (i : Nat) (x : Byte)
    (hi : i < l.length) (hx : x ≠ l.getD i 0) :
    xorFold (l.set i x) ≠ xorFold l := by
  rw [xorFold_set l i x hi]
  intro h
  have h0 : xorFold l ^^^ (l.getD i 0 ^^^ x) = xorFold l ^^^ 0 := by
    simpa [Nat.xor_zero] using h
  have h1 : l.getD i 0 ^^^ x = 0 := xor_left_cancel h0
  exact hx (Nat.xor_eq_zero.mp h1).symm

/-- The process-wide set of detected CPU instruction-set extensions
(hardware AES, carry-less multiply, wide vector units), per the spec's
`cpu` component (module declared at `src/src/lib.rs:118`). -/
structure CapabilitySet where
  aes : Bool
  clmul : Bool
  simd : Bool
deriving DecidableEq, Repr

/-- The minimal portable capability set: every optional acceleration absent. -/
def minimalCaps : CapabilitySet := ⟨false, false, false⟩

/-- Modelled from the spec: the raw per-feature answer of the hardware probe.
`none` means the probing mechanism could not decide the feature (an unknown
CPU state). -/
structure RawCpuState where
  aes : Option Bool
  clmul : Option Bool
  simd : Option Bool

/-- Modelled from the spec: the outcome of the platform probing mechanism;
`unavailable` means no probe is possible on this platform at all. -/
inductive ProbeResult where
  | available (raw : RawCpuState)
  | unavailable

/-- An unknown or undetected feature state maps to "feature absent". -/
def featureBit : Option Bool → Bool
  | some b => b
  | none => false

/-- Modelled from the spec: `CapabilityDetector.detect`, the body of the `cpu`
module not under `src/`.  It is a total function: every probe outcome maps
to a capability set, an unavailable probe maps to the minimal portable set,
and unknown feature states map to "absent". -/
def detect : ProbeResult → CapabilitySet
  | .available raw => ⟨featureBit raw.aes, featureBit raw.clmul, featureBit raw.simd⟩
  | .unavailable => minimalCaps

/-- Does the detected set `caps` satisfy every capability required by `req`? -/
def capsSatisfied (req caps : CapabilitySet) : Bool :=
  (!req.aes || caps.aes) && (!req.clmul || caps.clmul) && (!req.simd || caps.simd)

/-- The error taxonomy of the spec's `error` module (declared at
`src/src/lib.rs:122`; body not under `src/`): public-shape defects and
capability defects are reported distinctly, while every content-dependent
failure is the single undifferentiated `operationFailed`. -/
inductive Error where
  | inputShape
  | unsupportedCapability
  | operationFailed
deriving DecidableEq, Repr

/-- Modelled from the spec: the internal, content-dependent causes an
implementation may distinguish for its own purposes. -/
inductive FailureCause where
  | tagMismatch
  | signatureInvalid
  | otherContentFailure
deriving DecidableEq, Repr

/-- Modelled from the spec: the boundary mapping from any internal
content-dependent failure cause to the error value a caller observes. -/
def reportFailure : FailureCause → Error := fun _ => .operationFailed

/-- The closed, compiled-in enumeration of algorithm variants (the spec's
AlgorithmId).  In the crate this set is closed by the `sealed::Sealed`
marker trait of `src/src/lib.rs:135-149`, which lives in a private module,
so only code inside the library can implement the capability interface; the
embedding renders that closure as an inductive type whose constructors are
exactly the compiled-in variants. -/
inductive AlgorithmId where
  | aes128Gcm
  | aes256Gcm
  | chacha20Poly1305
deriving DecidableEq, Repr

/-- Static metadata bound to an AlgorithmId: fixed key/nonce/tag sizes and
the required capability subset. -/
structure AlgorithmDescriptor where
  keyLen : Nat
  nonceLen : Nat
  tagLen : Nat
  requiredCaps : CapabilitySet

/-- Modelled from the spec: the AlgorithmRegistry lookup, total on the closed
enumeration.  The AES variants require the hardware AES and carry-less
multiply accelerations; ChaCha20-Poly1305 runs on the minimal portable set. -/
def descriptor : AlgorithmId → AlgorithmDescriptor
  | .aes128Gcm => ⟨16, 12, 16, ⟨true, true, false⟩⟩
  | .aes256Gcm => ⟨32, 12, 16, ⟨true, true, false⟩⟩
  | .chacha20Poly1305 => ⟨32, 12, 16, minimalCaps⟩

/-- The full enumeration of compiled-in algorithm variants. -/
def allAlgorithmIds : List AlgorithmId :=
  [.aes128Gcm, .aes256Gcm, .chacha20Poly1305]

/-- The crate's feature flags, from the feature table of `src/src/lib.rs`. -/
structure Features where
  alloc : Bool
  dev_urandom_fallback : Bool
  force_std_detection : Bool
  std : Bool

/-- The modules declared by the crate root `src/src/lib.rs`. -/
inductive ModuleId where
  | debug | test | arithmetic | bssl | polyfill | aead | agreement | bits
  | c | constant_time | io_mod | cpu | digest | ec | endian | error | hkdf
  | hmac | limb | pbkdf2 | pkcs8 | rand | rsa | signature | sealed
deriving DecidableEq, Repr

/-- The module list of the crate root `src/src/lib.rs`, in declaration
order; `mod rsa` (lines 130-131) is compiled only under
`#[cfg(feature = "alloc")]`, every other module unconditionally. -/
def compiledModules (f : Features) : List ModuleId :=
  [.debug, .test, .arithmetic, .bssl, .polyfill, .aead, .agreement, .bits,
   .c, .constant_time, .io_mod, .cpu, .digest, .ec, .endian, .error, .hkdf,
   .hmac, .limb, .pbkdf2, .pkcs8, .rand]
  ++ (if f.alloc then [.rsa] else [])
  ++ [.signature, .sealed]

/-- Modelled from the spec: the keystream byte at position `i` derived from
key and nonce.  The individual cipher's mathematics are out of the spec's
scope; the model uses a key/nonce-dependent stream reduced to a byte. -/
def keystream (key nonce : List Byte) (i : Nat) : Byte :=
  (xorFold key + xorFold nonce + i) % 256

/-- Modelled from the spec: XOR of a buffer with the keystream starting at
stream position `i` (both encryption and decryption of the modelled AEAD). -/
def xorStream (key nonce : List Byte) : Nat → List Byte → List Byte
  | _, [] => []
  | i, b :: bs => (b ^^^ keystream key nonce i) :: xorStream key nonce (i + 1) bs

/-- Modelled from the spec: the authenticator state over key, nonce, aad and
ciphertext.  Any single-byte change to any of the four inputs changes this
value, which is what the framework-level tamper-detection property needs. -/
def tagSeed (key nonce aad ct : List Byte) : Nat :=
  xorFold key ^^^ xorFold nonce ^^^ xorFold aad ^^^ xorFold ct

/-- Modelled from the spec: the authentication tag of `tagLen` bytes computed
over key, nonce, aad and ciphertext. -/
def computeTag (tagLen : Nat) (key nonce aad ct : List Byte) : List Byte :=
  (List.range tagLen).map (fun i => tagSeed key nonce aad ct ^^^ i)

/-- Modelled from the spec: `seal(id, key, nonce, aad, plaintext)` of the
`aead` module (declared at `src/src/lib.rs:108`; body not under `src/`).
Capabilities are checked first, then the public input shapes, and only then
is the implementation invoked; the output is ciphertext followed by the
tag. -/
def sealAead (caps : CapabilitySet) (id : AlgorithmId)
    (key nonce aad pt : List Byte) : Except Error (List Byte) :=
  let d := descriptor id
  if capsSatisfied d.requiredCaps caps then
    if key.length = d.keyLen ∧ nonce.length = d.nonceLen then
      let ct := xorStream key nonce 0 pt
      .ok (ct ++ computeTag d.tagLen key nonce aad ct)
    else .error .inputShape
  else .error .unsupportedCapability

/-- Modelled from the spec: `open(id, key, nonce, aad, ciphertext_with_tag)`
of the `aead` module.  After the capability and shape checks, the tag is
recomputed and compared with `constant_time_equal`; a mismatch reports the
undifferentiated content failure. -/
def openAead (caps : CapabilitySet) (id : AlgorithmId)
    (key nonce aad ctt : List Byte) : Except Error (List Byte) :=
  let d := descriptor id
  if capsSatisfied d.requiredCaps caps then
    if key.length = d.keyLen ∧ nonce.length = d.nonceLen ∧ d.tagLen ≤ ctt.length then
      let ct := ctt.take (ctt.length - d.tagLen)
      let tag := ctt.drop (ctt.length - d.tagLen)
      if constant_time_equal tag (computeTag d.tagLen key nonce aad ct) then
        .ok (xorStream key nonce 0 ct)
      else .error (reportFailure .tagMismatch)
    else .error .inputShape
  else .error .unsupportedCapability

/-- Modelled from the spec: `verify(id, public_key, message, signature)` at
the dispatcher boundary; an invalid signature reports the same
undifferentiated content failure as a tag mismatch does. -/
def verifySig (caps : CapabilitySet) (id : AlgorithmId)
    (pubkey msg sig : List Byte) : Except Error Unit :=
  let d := descriptor id
  if capsSatisfied d.requiredCaps caps then
    if sig.length = d.tagLen then
      if constant_time_equal sig (computeTag d.tagLen pubkey [] [] msg) then
        .ok ()
      else .error (reportFailure .signatureInvalid)
    else .error .inputShape
  else .error .unsupportedCapability

theorem xorStream_length (key nonce : List Byte) :
    ∀ (i : Nat) (bs : List Byte), (xorStream key nonce i bs).length = bs.length := by
  intro i bs
  induction bs generalizing i with
  | nil => rfl
  | cons b tl ih => simp [xorStream, ih]

theorem xorStream_involutive (key nonce : List Byte) :
    ∀ (i : Nat) (bs : List Byte),
      xorStream key nonce i (xorStream key nonce i bs) = bs := by
  intro i bs
  induction bs generalizing i with
  | nil => rfl
  | cons b tl ih =>
    simp [xorStream, ih, Nat.xor_assoc, Nat.xor_self]

theorem computeTag_length (tagLen : Nat) (key nonce aad ct : List Byte) :
    (computeTag tagLen key nonce aad ct).length = tagLen := by
  simp [computeTag]

theorem computeTag_ne_of_seed_ne (tagLen : Nat) (htl : 0 < tagLen)
    {key nonce aad ct key2 nonce2 aad2 ct2 : List Byte}
    (hseed : tagSeed key nonce aad ct ≠ tagSeed key2 nonce2 aad2 ct2) :
    computeTag tagLen key nonce aad ct ≠ computeTag tagLen key2 nonce2 aad2 ct2 := by
  obtain ⟨m, rfl⟩ : ∃ m, tagLen = m + 1 := ⟨tagLen - 1, by omega⟩
  intro h
  have h0 := congrArg (fun l => l.getD 0 0) h
  simp [computeTag, List.range_succ_eq_map] at h0
  exact hseed h0

theorem tagSeed_ne_of_aad_set {key nonce aad ct : List Byte} (i : Nat) (x : Byte)
    (hi : i < aad.length) (hx : x ≠ aad.getD i 0) :
    tagSeed key nonce (aad.set i x) ct ≠ tagSeed key nonce aad ct := by
  unfold tagSeed
  intro h
  have h1 : xorFold key ^^^ (xorFold nonce ^^^ (xorFold (aad.set i x) ^^^ xorFold ct)) =
      xorFold key ^^^ (xorFold nonce ^^^ (xorFold aad ^^^ xorFold ct)) := by
    simpa [Nat.xor_assoc] using h
  have h2 := xor_left_cancel (xor_left_cancel h1)
  have h3 : xorFold (aad.set i x) = xorFold aad := by
    have := congrArg (fun z => z ^^^ xorFold ct) h2
    simpa [Nat.xor_assoc, Nat.xor_self] using this
  exact xorFold_set_ne aad i x hi hx h3

theorem tagSeed_ne_of_nonce_set {key nonce aad ct : List Byte} (i : Nat) (x : Byte)
    (hi : i < nonce.length) (hx : x ≠ nonce.getD i 0) :
    tagSeed key (nonce.set i x) aad ct ≠ tagSeed key nonce aad ct := by
  unfold tagSeed
  intro h
  have h1 : xorFold key ^^^ (xorFold (nonce.set i x) ^^^ (xorFold aad ^^^ xorFold ct)) =
      xorFold key ^^^ (xorFold nonce ^^^ (xorFold aad ^^^ xorFold ct)) := by
    simpa [Nat.xor_assoc] using h
  have h2 := xor_left_cancel h1
  have h3 : xorFold (nonce.set i x) = xorFold nonce := by
    have := congrArg (fun z => z ^^^ (xorFold aad ^^^ xorFold ct)) h2
    simpa [Nat.xor_assoc, Nat.xor_self] using this
  exact xorFold_set_ne nonce i x hi hx h3

theorem tagSeed_ne_of_ct_set {key nonce aad ct : List Byte} (i : Nat) (x : Byte)
    (hi : i < ct.length) (hx : x ≠ ct.getD i 0) :
    tagSeed key nonce aad (ct.set i x) ≠ tagSeed key nonce aad ct := by
  unfold tagSeed
  intro h
  have h1 : xorFold key ^^^ (xorFold nonce ^^^ (xorFold aad ^^^ xorFold (ct.set i x))) =
      xorFold key ^^^ (xorFold nonce ^^^ (xorFold aad ^^^ xorFold ct)) := by
    simpa [Nat.xor_assoc] using h
  have h2 := xor_left_cancel (xor_left_cancel (xor_left_cancel h1))
  exact xorFold_set_ne ct i x hi hx h2

/-- The value of a LimbSequence: 64-bit limbs in little-endian word order
(the representation of the `limb` and `arithmetic` modules declared at
`src/src/lib.rs:100` and `src/src/lib.rs:125`; bodies not under `src/`). -/
def limbsVal : List Nat → Nat
  | [] => 0
  | l :: ls => l + 2 ^ 64 * limbsVal ls

/-- Every limb of the sequence fits in the 64-bit machine word. -/
def validLimbs (l : List Nat) : Prop := ∀ x ∈ l, x < 2 ^ 64

instance (l : List Nat) : Decidable (validLimbs l) := by
  unfold validLimbs
  infer_instance

/-- Modelled from the spec: the exponent bits scanned by the fixed-pattern
exponentiation loop, most significant bit first, over the full fixed width
`64 * (number of limbs)` — never skipping leading zero bits of the secret
exponent. -/
def expBits (e : List Nat) : List Bool :=
  (List.range (64 * e.length)).reverse.map (fun i => (limbsVal e).testBit i)

/-- Modelled from the spec: the square-and-multiply loop that processes both
the 0 case and the 1 case of every exponent bit and picks the result with
`constant_time_select`, never branching on the bit. -/
def modexpLoop (m base : Nat) : List Bool → Nat → Nat
  | [], acc => acc
  | bit :: bits, acc =>
    let sq := acc * acc % m
    let sqMul := sq * base % m
    modexpLoop m base bits (constant_time_select bit sqMul sq)

/-- Modelled from the spec: `modexp(base, exponent, modulus)` of
LimbArithmetic.  A length mismatch between the LimbSequences, or a zero
modulus, is a caller defect reported as a shape error; otherwise the
fixed-pattern loop runs over the full exponent width. -/
def modexp (base exponent modulus : List Nat) : Except Error Nat :=
  if base.length = modulus.length ∧ exponent.length = modulus.length ∧
      limbsVal modulus ≠ 0 then
    .ok (modexpLoop (limbsVal modulus) (limbsVal base % limbsVal modulus)
      (expBits exponent) (1 % limbsVal modulus))
  else .error .inputShape

/-- Modelled from the spec: modular addition of reduced operands by a full
add followed by a single conditional subtraction selected with
`constant_time_select` (the non-early-exit reduction pattern). -/
def addMod (m a b : Nat) : Nat :=
  let s := a + b
  constant_time_select (decide (s < m)) s (s - m)

theorem testBit_toNat (x n : Nat) : (x.testBit n).toNat = x / 2 ^ n % 2 := by
  rw [Nat.testBit_to_div_mod]
  rcases Nat.mod_two_eq_zero_or_one (x / 2 ^ n) with h | h <;> simp [h]

theorem modexpLoop_spec (m B : Nat) :
    ∀ (bits : List Bool) (k : Nat),
      modexpLoop m B bits (B ^ k % m)
        = B ^ (bits.foldl (fun n b => 2 * n + b.toNat) k) % m := by
  intro bits
  induction bits with
  | nil => intro k; rfl
  | cons bit bits ih =>
    intro k
    have hsq : B ^ k % m * (B ^ k % m) % m = B ^ (2 * k) % m := by
      rw [Nat.mod_mul_mod, Nat.mul_mod_mod, ← pow_add, two_mul]
    have hsqMul : B ^ (2 * k) % m * B % m = B ^ (2 * k + 1) % m := by
      rw [Nat.mod_mul_mod, ← pow_succ]
    cases bit with
    | false =>
      simp only [modexpLoop, constant_time_select_false, hsq, List.foldl_cons,
        Bool.toNat_false, Nat.add_zero]
      exact ih (2 * k)
    | true =>
      simp only [modexpLoop, constant_time_select_true, hsq, hsqMul,
        List.foldl_cons, Bool.toNat_true]
      exact ih (2 * k + 1)

theorem foldl_doubling (x : Nat) :
    ∀ (W k : Nat),
      ((List.range W).reverse.map (fun i => x.testBit i)).foldl
          (fun n b => 2 * n + b.toNat) k
        = k * 2 ^ W + x % 2 ^ W := by
  intro W
  induction W with
  | zero => intro k; simp [Nat.mod_one]
  | succ W ih =>
    intro k
    have hrev : (List.range (W + 1)).reverse = W :: (List.range W).reverse := by
      rw [List.range_succ]
      simp
    rw [hrev, List.map_cons, List.foldl_cons, ih, testBit_toNat,
      pow_succ, Nat.mod_mul]
    ring

theorem limbsVal_lt (l : List Nat) (h : validLimbs l) :
    limbsVal l < 2 ^ (64 * l.length) := by
  induction l with
  | nil => simp [limbsVal]
  | cons a as ih =>
    have ha : a < 2 ^ 64 := h a (List.mem_cons_self a as)
    have has : validLimbs as := fun x hx => h x (List.mem_cons_of_mem a hx)
    have hv := ih has
    have hstep : 2 ^ (64 * (as.length + 1)) = 2 ^ 64 * 2 ^ (64 * as.length) := by
      rw [← pow_add]
      ring_nf
    calc limbsVal (a :: as) = a + 2 ^ 64 * limbsVal as := rfl
      _ < 2 ^ 64 + 2 ^ 64 * limbsVal as := by omega
      _ = 2 ^ 64 * (limbsVal as + 1) := by ring
      _ ≤ 2 ^ 64 * 2 ^ (64 * as.length) := by
          exact Nat.mul_le_mul_left _ (by omega)
      _ = 2 ^ (64 * (a :: as).length) := by
          rw [List.length_cons, hstep]

theorem expBits_foldl (e : List Nat) (h : validLimbs e) :
    (expBits e).foldl (fun n b => 2 * n + b.toNat) 0 = limbsVal e := by
  rw [expBits, foldl_doubling, Nat.zero_mul, Nat.zero_add,
    Nat.mod_eq_of_lt (limbsVal_lt e h)]

theorem addMod_correct (m a b : Nat) (ha : a < m) (hb : b < m) :
    addMod m a b = (a + b) % m ∧ addMod m a b < m := by
  simp only [addMod]
  by_cases h : a + b < m
  · rw [decide_eq_true h, constant_time_select_true, Nat.mod_eq_of_lt h]
    exact ⟨rfl, h⟩
  · have hm : m ≤ a + b := Nat.le_of_not_lt h
    rw [decide_eq_false h, constant_time_select_false, Nat.mod_eq_sub_mod hm,
      Nat.mod_eq_of_lt (by omega)]
    exact ⟨rfl, by omega⟩

theorem tagLen_pos (id : AlgorithmId) : 0 < (descriptor id).tagLen := by
  cases id <;> simp [descriptor]

theorem set_ne_self (l : List Byte) (j : Nat) (x : Byte)
    (hj : j < l.length) (hx : x ≠ l.getD j 0) : l.set j x ≠ l := by
  intro h
  have hget := congrArg (fun t => t.getD j 0) h
  simp only at hget
  rw [List.getD_eq_getElem _ _ (by simpa using hj), List.getElem_set_self] at hget
  rw [List.getD_eq_getElem _ _ hj] at hget
  rw [List.getD_eq_getElem _ _ hj] at hx
  exact hx hget

theorem getD_append_left (l1 l2 : List Byte) (i : Nat) (h : i < l1.length) :
    (l1 ++ l2).getD i 0 = l1.getD i 0 := by
  simp [List.getD_eq_getElem?_getD, List.getElem?_append_left h]

theorem getD_append_right (l1 l2 : List Byte) (i : Nat) (h : l1.length ≤ i) :
    (l1 ++ l2).getD i 0 = l2.getD (i - l1.length) 0 := by
  simp [List.getD_eq_getElem?_getD, List.getElem?_append_right h]

theorem sealAead_ok {caps : CapabilitySet} {id : AlgorithmId}
    {key nonce aad pt out : List Byte}
    (h : sealAead caps id key nonce aad pt = .ok out) :
    capsSatisfied (descriptor id).requiredCaps caps = true ∧
    key.length = (descriptor id).keyLen ∧
    nonce.length = (descriptor id).nonceLen ∧
    out = xorStream key nonce 0 pt ++
      computeTag (descriptor id).tagLen key nonce aad (xorStream key nonce 0 pt) := by
  simp only [sealAead] at h
  split_ifs at h with h1 h2
  refine ⟨h1, h2.1, h2.2, ?_⟩
  injection h with h3
  exact h3.symm

theorem openAead_split (caps : CapabilitySet) (id : AlgorithmId)
    (key nonce aad ct tg : List Byte)
    (h1 : capsSatisfied (descriptor id).requiredCaps caps = true)
    (hk : key.length = (descriptor id).keyLen)
    (hn : nonce.length = (descriptor id).nonceLen)
    (htg : tg.length = (descriptor id).tagLen) :
    openAead caps id key nonce aad (ct ++ tg) =
      if constant_time_equal tg (computeTag (descriptor id).tagLen key nonce aad ct) then
        .ok (xorStream key nonce 0 ct)
      else .error .operationFailed := by
  have hlen : (descriptor id).tagLen ≤ (ct ++ tg).length := by
    simp [List.length_append, htg]
  have hidx : (ct ++ tg).length - (descriptor id).tagLen = ct.length := by
    simp [List.length_append, htg]
  simp only [openAead, reportFailure]
  rw [if_pos h1, if_pos ⟨hk, hn, hlen⟩, hidx, List.take_left, List.drop_left]

/-- C1: For every supported AlgorithmId, and for every key, nonce, aad and
plaintext of the lengths fixed by that algorithm's descriptor (so that
`seal` succeeds), applying `seal` and then `open` with the identical key,
nonce and aad to seal's output returns the original plaintext. -/
theorem claim_seal_open_roundtrip (caps : CapabilitySet) (id : AlgorithmId)
    (key nonce aad pt out : List Byte)
    (h : sealAead caps id key nonce aad pt = .ok out) :
    openAead caps id key nonce aad out = .ok pt := by
  obtain ⟨h1, hk, hn, hout⟩ := sealAead_ok h
  subst hout
  rw [openAead_split caps id key nonce aad _ _ h1 hk hn
      (computeTag_length _ _ _ _ _),
    if_pos (constant_time_equal_refl _), xorStream_involutive]

theorem claim_seal_open_roundtrip_witness :
    openAead minimalCaps AlgorithmId.chacha20Poly1305 (List.replicate 32 0)
      (List.replicate 12 0) []
      [1, 3, 1, 3, 2, 1, 0, 7, 6, 5, 4, 11, 10, 9, 8, 15, 14, 13, 12]
      = .ok [1, 2, 3] :=
  claim_seal_open_roundtrip minimalCaps .chacha20Poly1305 (List.replicate 32 0)
    (List.replicate 12 0) [] [1, 2, 3]
    [1, 3, 1, 3, 2, 1, 0, 7, 6, 5, 4, 11, 10, 9, 8, 15, 14, 13, 12] (by rfl)

/-- C2: `constant_time_equal(a, a)` is true for every byte sequence `a`, and
`constant_time_equal(a, b)` is false for every pair of equal-length byte
sequences with `a ≠ b`. -/
theorem claim_constant_time_equal_correct :
    (∀ a : List Byte, constant_time_equal a a = true) ∧
    (∀ a b : List Byte, a.length = b.length → a ≠ b →
      constant_time_equal a b = false) :=
  ⟨constant_time_equal_refl,
   fun a b hlen hne => constant_time_equal_ne a b hlen hne⟩

theorem claim_constant_time_equal_correct_witness :
    constant_time_equal [3, 7] [3, 7] = true ∧
    constant_time_equal [3, 7] [3, 9] = false :=
  ⟨claim_constant_time_equal_correct.1 [3, 7],
   claim_constant_time_equal_correct.2 [3, 7] [3, 9] rfl (by decide)⟩

/-- C3: `modexp(base, exponent, modulus)` over LimbSequences of the expected
matching lengths equals `base ^ exponent` reduced modulo the modulus
(covering base = 0, exponent = 0 and modulus = 1 as instances of the
formula), its output lies in `[0, modulus)`, and the modular-addition
operation likewise returns the exact result reduced into `[0, modulus)`. -/
theorem claim_modexp_correct :
    (∀ base e modulus : List Nat, validLimbs e →
      base.length = modulus.length → e.length = modulus.length →
      limbsVal modulus ≠ 0 →
      modexp base e modulus
        = .ok (limbsVal base ^ limbsVal e % limbsVal modulus) ∧
      (∀ r, modexp base e modulus = .ok r → r < limbsVal modulus)) ∧
    (∀ m a b : Nat, a < m → b < m →
      addMod m a b = (a + b) % m ∧ addMod m a b < m) := by
  constructor
  · intro base e modulus hv hb he hm
    have hmain : modexp base e modulus
        = .ok (limbsVal base ^ limbsVal e % limbsVal modulus) := by
      rw [modexp, if_pos ⟨hb, he, hm⟩]
      have h1 : 1 % limbsVal modulus
          = (limbsVal base % limbsVal modulus) ^ 0 % limbsVal modulus := by
        rw [pow_zero]
      rw [h1, modexpLoop_spec, expBits_foldl e hv, ← Nat.pow_mod]
    refine ⟨hmain, ?_⟩
    intro r hr
    rw [hmain] at hr
    injection hr with hr2
    rw [← hr2]
    exact Nat.mod_lt _ (Nat.pos_of_ne_zero hm)
  · exact fun m a b ha hb => addMod_correct m a b ha hb

theorem claim_modexp_correct_witness :
    modexp [3] [5] [7] = .ok 5 ∧ modexp [0] [0] [9] = .ok 1 ∧
    modexp [4] [3] [1] = .ok 0 ∧ addMod 7 5 4 = 2 := by
  have h1 := (claim_modexp_correct.1 [3] [5] [7] (by decide) rfl rfl
    (by decide)).1
  have h2 := (claim_modexp_correct.1 [0] [0] [9] (by decide) rfl rfl
    (by decide)).1
  have h3 := (claim_modexp_correct.1 [4] [3] [1] (by decide) rfl rfl
    (by decide)).1
  have h4 := (claim_modexp_correct.2 7 5 4 (by decide) (by decide)).1
  refine ⟨?_, ?_, ?_, ?_⟩
  · rw [h1]; rfl
  · rw [h2]; rfl
  · rw [h3]; rfl
  · rw [h4]

/-- C4: every content-dependent failure cause (authentication-tag mismatch,
signature invalidity, or any other content-dependent failure) is reported
to the caller as one and the same undifferentiated `operationFailed` value:
the boundary mapping is constant, and once the capability and shape checks
of `open` or `verify` have passed, `operationFailed` is the only error a
caller can observe. -/
theorem claim_failures_collapse :
    (∀ c1 c2 : FailureCause, reportFailure c1 = reportFailure c2) ∧
    (∀ c : FailureCause, reportFailure c = Error.operationFailed) ∧
    (∀ (caps : CapabilitySet) (id : AlgorithmId)
        (key nonce aad ctt : List Byte) (e : Error),
      openAead caps id key nonce aad ctt = .error e →
      capsSatisfied (descriptor id).requiredCaps caps = true →
      key.length = (descriptor id).keyLen →
      nonce.length = (descriptor id).nonceLen →
      (descriptor id).tagLen ≤ ctt.length →
      e = Error.operationFailed) ∧
    (∀ (caps : CapabilitySet) (id : AlgorithmId)
        (pk msg sig : List Byte) (e : Error),
      verifySig caps id pk msg sig = .error e →
      capsSatisfied (descriptor id).requiredCaps caps = true →
      sig.length = (descriptor id).tagLen →
      e = Error.operationFailed) := by
  refine ⟨fun c1 c2 => rfl, fun c => rfl, ?_, ?_⟩
  · intro caps id key nonce aad ctt e h hcaps hk hn hlen
    simp only [openAead, reportFailure] at h
    rw [if_pos hcaps, if_pos ⟨hk, hn, hlen⟩] at h
    split at h
    · exact absurd h (by simp)
    · injection h with h2
      exact h2.symm
  · intro caps id pk msg sig e h hcaps hs
    simp only [verifySig, reportFailure] at h
    rw [if_pos hcaps, if_pos hs] at h
    split at h
    · exact absurd h (by simp)
    · injection h with h2
      exact h2.symm

theorem claim_failures_collapse_witness :
    openAead minimalCaps AlgorithmId.chacha20Poly1305 (List.replicate 32 0)
      (List.replicate 12 0) [] (List.replicate 16 1)
      = .error Error.operationFailed ∧
    verifySig minimalCaps AlgorithmId.chacha20Poly1305 [] []
      (List.replicate 16 1) = .error Error.operationFailed ∧
    Error.operationFailed = Error.operationFailed := by
  have ho : openAead minimalCaps AlgorithmId.chacha20Poly1305
      (List.replicate 32 0) (List.replicate 12 0) [] (List.replicate 16 1)
      = .error Error.operationFailed := by rfl
  have hv : verifySig minimalCaps AlgorithmId.chacha20Poly1305 [] []
      (List.replicate 16 1) = .error Error.operationFailed := by rfl
  refine ⟨ho, hv, ?_⟩
  exact claim_failures_collapse.2.2.1 minimalCaps .chacha20Poly1305
    (List.replicate 32 0) (List.replicate 12 0) [] (List.replicate 16 1)
    Error.operationFailed ho (by rfl) (by rfl) (by rfl) (by rfl)

/-- C5: the capability detector never fails: it is a total function into
capability sets, an unavailable probing mechanism yields the minimal
portable capability set (all optional accelerations absent), and an
unknown feature state maps to "feature absent". -/
theorem claim_detect_never_fails :
    (∀ p : ProbeResult, ∃ c : CapabilitySet, detect p = c) ∧
    detect ProbeResult.unavailable = minimalCaps ∧
    (∀ raw : RawCpuState, raw.aes = none →
      (detect (.available raw)).aes = false) ∧
    (∀ raw : RawCpuState, raw.clmul = none →
      (detect (.available raw)).clmul = false) ∧
    (∀ raw : RawCpuState, raw.simd = none →
      (detect (.available raw)).simd = false) := by
  refine ⟨fun p => ⟨detect p, rfl⟩, rfl, ?_, ?_, ?_⟩ <;>
    intro raw h <;> simp [detect, h, featureBit]

theorem claim_detect_never_fails_witness :
    (detect (.available ⟨none, none, none⟩)).aes = false ∧
    detect ProbeResult.unavailable = minimalCaps :=
  ⟨claim_detect_never_fails.2.2.1 ⟨none, none, none⟩ rfl,
   claim_detect_never_fails.2.1⟩

/-- C6: dispatching any AlgorithmId whose descriptor requires a capability
absent from the detected capability set returns the distinct
`unsupportedCapability` error for every operation kind and every input —
so the result does not depend on the input material (the implementation is
never invoked), no other algorithm is silently substituted, and the error
is distinct from the cryptographic-failure and shape errors. -/
theorem claim_dispatch_unsupported (caps : CapabilitySet) (id : AlgorithmId)
    (h : capsSatisfied (descriptor id).requiredCaps caps = false) :
    (∀ key nonce aad pt, sealAead caps id key nonce aad pt
      = .error .unsupportedCapability) ∧
    (∀ key nonce aad ctt, openAead caps id key nonce aad ctt
      = .error .unsupportedCapability) ∧
    (∀ pk msg sig, verifySig caps id pk msg sig
      = .error .unsupportedCapability) ∧
    Error.unsupportedCapability ≠ Error.operationFailed ∧
    Error.unsupportedCapability ≠ Error.inputShape := by
  refine ⟨?_, ?_, ?_, by simp, by simp⟩ <;>
    intros <;> simp [sealAead, openAead, verifySig, h]

theorem claim_dispatch_unsupported_witness :
    sealAead minimalCaps AlgorithmId.aes128Gcm [] [] [] []
      = .error Error.unsupportedCapability ∧
    Error.unsupportedCapability ≠ Error.operationFailed :=
  ⟨(claim_dispatch_unsupported minimalCaps .aes128Gcm (by rfl)).1 [] [] [] [],
   (claim_dispatch_unsupported minimalCaps .aes128Gcm (by rfl)).2.2.2.1⟩

/-- C7: for every valid seal output, every single-byte modification of the
ciphertext-with-tag, of the aad, or of the nonce makes the subsequent
`open` return exactly the `operationFailed` outcome (in a total model no
crash is possible, and no other error value is returned). -/
theorem claim_open_tamper_fails (caps : CapabilitySet) (id : AlgorithmId)
    (key nonce aad pt out : List Byte)
    (hseal : sealAead caps id key nonce aad pt = .ok out) :
    (∀ i x, i < out.length → x ≠ out.getD i 0 →
      openAead caps id key nonce aad (out.set i x)
        = .error .operationFailed) ∧
    (∀ i x, i < aad.length → x ≠ aad.getD i 0 →
      openAead caps id key nonce (aad.set i x) out
        = .error .operationFailed) ∧
    (∀ i x, i < nonce.length → x ≠ nonce.getD i 0 →
      openAead caps id key (nonce.set i x) aad out
        = .error .operationFailed) := by
  obtain ⟨h1, hk, hn, hout⟩ := sealAead_ok hseal
  set ct := xorStream key nonce 0 pt with hct
  set tg := computeTag (descriptor id).tagLen key nonce aad ct with htg
  have htglen : tg.length = (descriptor id).tagLen := by
    rw [htg]
    exact computeTag_length _ _ _ _ _
  subst hout
  refine ⟨?_, ?_, ?_⟩
  · intro i x hi hx
    rw [List.length_append, htglen] at hi
    by_cases hcase : i < ct.length
    · rw [List.set_append_left _ _ hcase]
      rw [getD_append_left _ _ _ hcase] at hx
      rw [openAead_split caps id key nonce aad _ _ h1 hk hn htglen]
      have hseed : tagSeed key nonce aad (ct.set i x) ≠ tagSeed key nonce aad ct :=
        tagSeed_ne_of_ct_set i x hcase hx
      have hne : tg ≠ computeTag (descriptor id).tagLen key nonce aad (ct.set i x) := by
        rw [htg]
        exact fun hcontra =>
          (computeTag_ne_of_seed_ne _ (tagLen_pos id) hseed) hcontra.symm
      rw [if_neg]
      exact fun hcontra => by
        rw [constant_time_equal_ne tg _ (by rw [htglen, computeTag_length]) hne] at hcontra
        exact Bool.false_ne_true hcontra
    · have hge : ct.length ≤ i := Nat.le_of_not_lt hcase
      rw [List.set_append_right _ _ hge]
      rw [getD_append_right _ _ _ hge] at hx
      have hj : i - ct.length < tg.length := by omega
      have htg2len : (tg.set (i - ct.length) x).length = (descriptor id).tagLen := by
        rw [List.length_set, htglen]
      rw [openAead_split caps id key nonce aad _ _ h1 hk hn htg2len]
      have hne : tg.set (i - ct.length) x ≠ tg := set_ne_self tg _ x hj hx
      have hne2 : tg.set (i - ct.length) x
          ≠ computeTag (descriptor id).tagLen key nonce aad ct := by
        rw [← htg]
        exact hne
      rw [if_neg]
      exact fun hcontra => by
        rw [constant_time_equal_ne _ _
          (by rw [List.length_set, htglen]) hne2] at hcontra
        exact Bool.false_ne_true hcontra
  · intro i x hi hx
    rw [openAead_split caps id key nonce (aad.set i x) _ _ h1 hk hn htglen]
    have hseed : tagSeed key nonce (aad.set i x) ct ≠ tagSeed key nonce aad ct :=
      tagSeed_ne_of_aad_set i x hi hx
    have hne : tg ≠ computeTag (descriptor id).tagLen key nonce (aad.set i x) ct := by
      rw [htg]
      exact fun hcontra =>
        (computeTag_ne_of_seed_ne _ (tagLen_pos id) hseed) hcontra.symm
    rw [if_neg]
    exact fun hcontra => by
      rw [constant_time_equal_ne tg _ (by rw [htglen, computeTag_length]) hne] at hcontra
      exact Bool.false_ne_true hcontra
  · intro i x hi hx
    have hn2 : (nonce.set i x).length = (descriptor id).nonceLen := by
      rw [List.length_set, hn]
    rw [openAead_split caps id key (nonce.set i x) aad _ _ h1 hk hn2 htglen]
    have hseed : tagSeed key (nonce.set i x) aad ct ≠ tagSeed key nonce aad ct :=
      tagSeed_ne_of_nonce_set i x hi hx
    have hne : tg ≠ computeTag (descriptor id).tagLen key (nonce.set i x) aad ct := by
      rw [htg]
      exact fun hcontra =>
        (computeTag_ne_of_seed_ne _ (tagLen_pos id) hseed) hcontra.symm
    rw [if_neg]
    exact fun hcontra => by
      rw [constant_time_equal_ne tg _ (by rw [htglen, computeTag_length]) hne] at hcontra
      exact Bool.false_ne_true hcontra

theorem claim_open_tamper_fails_witness :
    openAead minimalCaps AlgorithmId.chacha20Poly1305 (List.replicate 32 0)
      (List.replicate 12 0) [5]
      ([1, 3, 1, 6, 7, 4, 5, 2, 3, 0, 1, 14, 15, 12, 13, 10, 11, 8, 9].set 0 99)
      = .error Error.operationFailed ∧
    openAead minimalCaps AlgorithmId.chacha20Poly1305 (List.replicate 32 0)
      (List.replicate 12 0) ([5].set 0 6)
      [1, 3, 1, 6, 7, 4, 5, 2, 3, 0, 1, 14, 15, 12, 13, 10, 11, 8, 9]
      = .error Error.operationFailed :=
  ⟨(claim_open_tamper_fails minimalCaps .chacha20Poly1305 (List.replicate 32 0)
      (List.replicate 12 0) [5] [1, 2, 3]
      [1, 3, 1, 6, 7, 4, 5, 2, 3, 0, 1, 14, 15, 12, 13, 10, 11, 8, 9]
      (by rfl)).1 0 99 (by decide) (by decide),
   (claim_open_tamper_fails minimalCaps .chacha20Poly1305 (List.replicate 32 0)
      (List.replicate 12 0) [5] [1, 2, 3]
      [1, 3, 1, 6, 7, 4, 5, 2, 3, 0, 1, 14, 15, 12, 13, 10, 11, 8, 9]
      (by rfl)).2.1 0 6 (by decide) (by decide)⟩

/-- C8: the set of algorithm implementations is closed: every value of the
capability interface's implementing type is one of the compiled-in
variants enumerated by `allAlgorithmIds` (the embedding of the private
`sealed::Sealed` marker of `src/src/lib.rs:135-149`, which no code outside
the library can implement). -/
theorem claim_algorithm_set_closed :
    ∀ a : AlgorithmId, a ∈ allAlgorithmIds := by
  intro a
  cases a <;> simp [allAlgorithmIds]

/-- C9: in the cost model of the embedding, the execution time (number of
loop iterations) and the memory-access pattern (sequence of indices read)
of `constant_time_equal` depend only on the lengths of its inputs, never
on their contents — in particular not on the position of the first
differing byte. -/
theorem claim_constant_time_timing :
    ∀ a b a2 b2 : List Byte, a.length = a2.length → b.length = b2.length →
      ctEqSteps a b = ctEqSteps a2 b2 ∧ ctEqTrace a b = ctEqTrace a2 b2 := by
  intro a b a2 b2 h1 h2
  constructor
  · rw [ctEqSteps, ctEqSteps, ctScan_steps, ctScan_steps, h1, h2]
  · rw [ctEqTrace, ctEqTrace, ctScan_trace, ctScan_trace, h1, h2]

theorem claim_constant_time_timing_witness :
    ctEqSteps [1, 2] [9, 2] = ctEqSteps [1, 2] [1, 3] ∧
    ctEqTrace [1, 2] [9, 2] = ctEqTrace [1, 2] [1, 3] :=
  claim_constant_time_timing [1, 2] [9, 2] [1, 2] [1, 3] rfl rfl

/-- C10: in a build without the `alloc` feature the `rsa` module is absent
from the crate's compiled module set, and it is present exactly when
`alloc` is enabled (from the `#[cfg(feature = "alloc")] mod rsa;` of
`src/src/lib.rs:130-131`). -/
theorem claim_rsa_requires_alloc :
    ∀ f : Features, (ModuleId.rsa ∈ compiledModules f ↔ f.alloc = true) := by
  intro f
  rcases f with ⟨alloc, hd, hf, hs⟩
  cases alloc <;> simp [compiledModules]

end RingSpec
